import Mathlib

/-!
Verification of the Siemens & Halske SFM T52a cipher machine simulator.

The definitions below are a shallow embedding of the Python source
`siemens_halske-t52a.py`.  Strings of binary digits are modelled as
`List ℕ` of digits (most significant first, as in the Python string
produced by a 05b format), characters as their code points (`ℕ`).
-/

/-- `int(s, 2)` on a string of binary digits, modelled on the digit list. -/
def parseBin (l : List ℕ) : ℕ := l.foldl (fun a d => 2 * a + d) 0

/-- Fuel-driven binary digit expansion (most significant digit first).
The fuel is an upper bound on the number of divisions by two. -/
def toBinAux : ℕ → ℕ → List ℕ
  | _, 0 => []
  | 0, _ + 1 => []
  | fuel + 1, n + 1 => toBinAux fuel ((n + 1) / 2) ++ [(n + 1) % 2]

/-- Binary digits of `n`, most significant first; empty for `0`. -/
def toBin (n : ℕ) : List ℕ := toBinAux n n

/-- Python `'{:05b}'.format(n)`: the binary digits of `n`, left-padded
with zeros to a width of at least 5 (wider numbers keep all digits). -/
def format05b (n : ℕ) : List ℕ := List.replicate (5 - (toBin n).length) 0 ++ toBin n

/-- `result[4:] + result[1:4] + result[:1]` (the swap tested on s-bit 4). -/
def swap4 (r : List ℕ) : List ℕ := r.drop 4 ++ (r.drop 1).take 3 ++ r.take 1

/-- `result[:3] + result[3:5][::-1]` (the swap tested on s-bit 3). -/
def swap3 (r : List ℕ) : List ℕ := r.take 3 ++ ((r.drop 3).take 2).reverse

/-- `result[:2] + result[2:4][::-1] + result[4:]` (the swap tested on s-bit 2). -/
def swap2 (r : List ℕ) : List ℕ := r.take 2 ++ ((r.drop 2).take 2).reverse ++ r.drop 4

/-- `result[:1] + result[1:3][::-1] + result[3:]` (the swap tested on s-bit 1). -/
def swap1 (r : List ℕ) : List ℕ := r.take 1 ++ ((r.drop 1).take 2).reverse ++ r.drop 3

/-- `result[:2][::-1] + result[2:]` (the swap tested on s-bit 0). -/
def swap0 (r : List ℕ) : List ℕ := (r.take 2).reverse ++ r.drop 2

/-- The swap block of `encrypt_char`: the five conditional swaps applied in
order, s-bit 4 first, each guarded by `(s >> k) & 1`. -/
def swapEnc (s : ℕ) (r0 : List ℕ) : List ℕ :=
  let r1 := if s >>> 4 &&& 1 = 1 then swap4 r0 else r0
  let r2 := if s >>> 3 &&& 1 = 1 then swap3 r1 else r1
  let r3 := if s >>> 2 &&& 1 = 1 then swap2 r2 else r2
  let r4 := if s >>> 1 &&& 1 = 1 then swap1 r3 else r3
  if s &&& 1 = 1 then swap0 r4 else r4

/-- The swap block of `decrypt_char`: the same five conditional swaps
applied in reverse order, s-bit 0 first. -/
def swapDec (s : ℕ) (r0 : List ℕ) : List ℕ :=
  let r1 := if s &&& 1 = 1 then swap0 r0 else r0
  let r2 := if s >>> 1 &&& 1 = 1 then swap1 r1 else r1
  let r3 := if s >>> 2 &&& 1 = 1 then swap2 r2 else r2
  let r4 := if s >>> 3 &&& 1 = 1 then swap3 r3 else r3
  if s >>> 4 &&& 1 = 1 then swap4 r4 else r4

/-- Class `Wheel`: a cyclic bit pattern and a current position (`state`).
`wheel_size` is stored as `len(wheel_data)` in the source and never
changes, so it is modelled as a derived quantity. -/
structure Wheel where
  wheel_data : List ℕ
  state : ℕ

instance : Inhabited Wheel := ⟨⟨[], 0⟩⟩

/-- `self.wheel_size = len(wheel_data)`. -/
def Wheel.wheel_size (w : Wheel) : ℕ := w.wheel_data.length

/-- `self.state = (self.state + 1) % self.wheel_size`. -/
def Wheel.advance (w : Wheel) : Wheel := ⟨w.wheel_data, (w.state + 1) % w.wheel_size⟩

/-- `return self.wheel_data[self.state]` (out-of-range read defaults to 0;
the source only reads valid positions). -/
def Wheel.get_val (w : Wheel) : ℕ := w.wheel_data.getD w.state 0

/-- Class `WheelBank`: a list of wheels advanced in lock-step. -/
structure WheelBank where
  wheels : List Wheel

/-- `for w in self.wheels: w.advance()`. -/
def WheelBank.advance (b : WheelBank) : WheelBank := ⟨b.wheels.map Wheel.advance⟩

/-- `int("0b" + ''.join(str(i) for i in result[::-1]), 2)` where `result`
collects `wheels[i].get_val()` for `i` in `range(5)`: wheel 0 lands in the
least significant position.  For bit-valued patterns (the only ones the
source can parse) this is exactly the reversed digit parse below. -/
def WheelBank.get_val (b : WheelBank) : ℕ :=
  parseBin (((List.range 5).map fun i => (b.wheels.getD i default).get_val).reverse)

/-- Class `SFM_T52a`: the machine owns the X (xor) and S (swap) banks. -/
structure SFM_T52a where
  X_wheels : WheelBank
  S_wheels : WheelBank

/-- `SFM_T52a.advance`: both banks advance every time. -/
def SFM_T52a.advance (m : SFM_T52a) : SFM_T52a := ⟨m.X_wheels.advance, m.S_wheels.advance⟩

/-- `SFM_T52a.encrypt_char`: xor with the X value, the five conditional
swaps (s-bit 4 first), advance, return the reassembled integer.  The
returned pair is (result, machine after the unconditional advance). -/
def SFM_T52a.encrypt_char (m : SFM_T52a) (c : ℕ) : ℕ × SFM_T52a :=
  (parseBin (swapEnc m.S_wheels.get_val (format05b (c ^^^ m.X_wheels.get_val))), m.advance)

/-- `SFM_T52a.decrypt_char`: the five conditional swaps in reverse order
(s-bit 0 first), then xor with the X value, advance. -/
def SFM_T52a.decrypt_char (m : SFM_T52a) (c : ℕ) : ℕ × SFM_T52a :=
  (parseBin (swapDec m.S_wheels.get_val (format05b c)) ^^^ m.X_wheels.get_val, m.advance)

/-- `SFM_T52a.encrypt`: the per-unit operation folded left-to-right over a
message, threading the machine state. -/
def SFM_T52a.encrypt : SFM_T52a → List ℕ → List ℕ × SFM_T52a
  | m, [] => ([], m)
  | m, c :: rest =>
    ((m.encrypt_char c).1 :: (SFM_T52a.encrypt (m.encrypt_char c).2 rest).1,
     (SFM_T52a.encrypt (m.encrypt_char c).2 rest).2)

/-- `SFM_T52a.decrypt`: the per-unit inverse folded left-to-right. -/
def SFM_T52a.decrypt : SFM_T52a → List ℕ → List ℕ × SFM_T52a
  | m, [] => ([], m)
  | m, c :: rest =>
    ((m.decrypt_char c).1 :: (SFM_T52a.decrypt (m.decrypt_char c).2 rest).1,
     (SFM_T52a.decrypt (m.decrypt_char c).2 rest).2)

/-- `SFM_T52a.__init__`: the X bank is built from the first five indicator
entries, the S bank from the last five, zipping patterns with positions. -/
def mkSFM_T52a (X S : List (List ℕ)) (initial : List ℕ) : SFM_T52a :=
  ⟨⟨(X.zip (initial.take 5)).map fun p => ⟨p.1, p.2⟩⟩,
   ⟨(S.zip (initial.drop 5)).map fun p => ⟨p.1, p.2⟩⟩⟩

/-- A concrete machine whose ten wheels all carry the single-entry
pattern `[0]` and start at position 0: both bank values are always 0. -/
def zeroSFM : SFM_T52a :=
  mkSFM_T52a [[0], [0], [0], [0], [0]] [[0], [0], [0], [0], [0]]
    [0, 0, 0, 0, 0, 0, 0, 0, 0, 0]

/-- A concrete five-wheel bank used to instantiate bank-level theorems. -/
def sampleBank : WheelBank :=
  ⟨[⟨[1], 0⟩, ⟨[0, 1], 1⟩, ⟨[1, 1, 0], 0⟩, ⟨[0], 0⟩, ⟨[1, 0], 0⟩]⟩

/-!  ASCII/TTY codec tables, transcribed entry by entry from the source.
`255` is the invalid-character marker, bit 7 flags "figures shift
required", bit 6 flags "valid in either shift", the low five bits are the
teleprinter code.  Characters are represented by their code points. -/

/-- The 128-entry `asc2tty` conversion table. -/
def asc2tty : List ℕ :=
  [64, 255, 255, 255, 255, 255, 255, 154, 255, 255,
   72, 255, 255, 66, 255, 255, 255, 255, 255, 255,
   255, 255, 255, 255, 255, 255, 255, 255, 255, 255,
   255, 255, 68, 255, 255, 255, 146, 255, 255, 148,
   158, 137, 255, 145, 134, 152, 135, 151,
   141, 157, 153, 144, 138, 129, 149, 156, 140, 131, 142,
   255, 158, 143, 137, 147, 255, 24, 19, 14, 18, 16, 22, 11,
   5, 12, 26, 30, 9, 7, 6, 3, 13, 29, 10, 20, 1, 28, 15, 25,
   23, 21, 17, 158, 255, 137, 255, 255, 255, 24, 19, 14,
   18, 16, 22, 11, 5, 12, 26, 30, 9, 7, 6, 3, 13, 29, 10, 20,
   1, 28, 15, 25, 23, 21, 17, 158, 255, 137, 154, 255]

/-- The 32-entry letters-shift decode table `tty_ltrs2asc` (entries are
code points; positions 27 and 31 hold the shift sentinels). -/
def tty_ltrs2asc : List ℕ :=
  [0, 84, 13, 79, 32, 72, 78, 77, 10, 76, 82, 71, 73, 80, 67, 86,
   69, 90, 68, 66, 83, 89, 70, 88, 65, 87, 74, 27, 85, 81, 75, 31]

/-- The 32-entry figures-shift decode table `tty_figs2asc`. -/
def tty_figs2asc : List ℕ :=
  [0, 53, 13, 57, 32, 38, 44, 46, 10, 41, 52, 38, 56, 48, 58, 61,
   51, 43, 36, 63, 39, 54, 38, 47, 45, 50, 7, 27, 55, 49, 40, 31]

/-- The conversion loop of `ascii2tty`: each byte is masked to 7 bits and
looked up; invalid bytes are dropped; a shift character (27 = figures,
31 = letters) is emitted before a unit whose required shift differs from
the tracked state; bytes valid in either shift leave the state alone. -/
def a2tLoop : Bool → List ℕ → List ℕ
  | _, [] => []
  | figs, b :: rest =>
    let ch := asc2tty.getD (b % 128) 255
    if ch = 255 then a2tLoop figs rest
    else if ch.testBit 6 then ch % 32 :: a2tLoop figs rest
    else if ch.testBit 7 then
      (if figs then ch % 32 :: a2tLoop true rest
       else 27 :: ch % 32 :: a2tLoop true rest)
    else
      (if figs then 31 :: ch % 32 :: a2tLoop false rest
       else ch % 32 :: a2tLoop false rest)

/-- `ascii2tty`: before the loop the source inspects the table entry of
the FIRST byte of the stream (valid or not; the invalid marker 255 has
bit 6 set and therefore takes the either-shift branch) and emits an
initial shift character when that entry requires a definite shift. -/
def ascii2tty (s : List ℕ) : List ℕ :=
  match s with
  | [] => []
  | b :: _ =>
    let ch := asc2tty.getD (b % 128) 255
    if ch.testBit 6 then a2tLoop false s
    else if ch.testBit 7 then 27 :: a2tLoop true s
    else 31 :: a2tLoop false s

/-- The loop of `tty2ascii`: units are masked to 5 bits; 31 switches to
letters, 27 to figures (emitting nothing); other units are decoded
through the table of the current shift state. -/
def t2aLoop : Bool → List ℕ → List ℕ
  | _, [] => []
  | figs, c :: rest =>
    let c5 := c % 32
    if c5 = 31 then t2aLoop false rest
    else if c5 = 27 then t2aLoop true rest
    else (if figs then tty_figs2asc.getD c5 0 else tty_ltrs2asc.getD c5 0) :: t2aLoop figs rest

/-- `tty2ascii`: decode assuming an initial letters shift. -/
def tty2ascii (s : List ℕ) : List ℕ := t2aLoop false s

/-- Upper-casing of a code point (the encode table maps lower-case
letters to the codes of their upper-case forms). -/
def upperByte (b : ℕ) : ℕ := if 97 ≤ b ∧ b ≤ 122 then b - 32 else b

/-- The reference result of a codec round trip: unmapped bytes are
dropped, the rest come back upper-cased. -/
def upperFilter (s : List ℕ) : List ℕ :=
  s.filterMap fun b =>
    if asc2tty.getD (b % 128) 255 = 255 then none else some (upperByte b)

/-- The per-byte facts that make a byte survive a codec round trip
unchanged (up to upper-casing): it is mapped, its code is not a shift
sentinel, and the decode table of the shift it is emitted under maps its
code back to its upper-cased self. -/
def GoodStep (b : ℕ) : Prop :=
  asc2tty.getD (b % 128) 255 ≠ 255 ∧
  asc2tty.getD (b % 128) 255 % 32 ≠ 27 ∧
  asc2tty.getD (b % 128) 255 % 32 ≠ 31 ∧
  ((asc2tty.getD (b % 128) 255).testBit 6 = true →
    tty_ltrs2asc.getD (asc2tty.getD (b % 128) 255 % 32) 0 = upperByte b ∧
    tty_figs2asc.getD (asc2tty.getD (b % 128) 255 % 32) 0 = upperByte b) ∧
  ((asc2tty.getD (b % 128) 255).testBit 6 = false →
    (asc2tty.getD (b % 128) 255).testBit 7 = true →
    tty_figs2asc.getD (asc2tty.getD (b % 128) 255 % 32) 0 = upperByte b) ∧
  ((asc2tty.getD (b % 128) 255).testBit 6 = false →
    (asc2tty.getD (b % 128) 255).testBit 7 = false →
    tty_ltrs2asc.getD (asc2tty.getD (b % 128) 255 % 32) 0 = upperByte b)

/-- The mapped bytes whose round trip is the identity up to upper-casing:
letters, digits, space and the punctuation drawn here.  The mapped bytes
60, 62, 91, 93, 123, 125, 126 are excluded: they share codes with 40, 41
and 7 and decode to those canonical characters instead of themselves. -/
def goodBytes : List ℕ :=
  [32, 36, 39, 40, 41, 43, 44, 45, 46, 47,
   48, 49, 50, 51, 52, 53, 54, 55, 56, 57, 58, 61, 63] ++
  (List.range 26).map (fun i => 65 + i) ++
  (List.range 26).map (fun i => 97 + i)

/-!  Key generation (the `keygen` branch of `__main__`).  The calls into
the system random source are modelled as inputs: `shuffled` is the wheel
size list after the three shuffles, `buf` the 700 random binary digits of
`'{:0700b}'.format(randgen.getrandbits(700))`. -/

/-- The fixed candidate wheel sizes `Wheel_Size`. -/
def candidateSizes : List ℕ := [73, 71, 69, 67, 65, 64, 61, 59, 53, 47]

/-- The size-distribution loop: five times, `X_sizes.append(pop())` then
`S_sizes.append(pop())`.  Python `pop()` takes from the back of the list,
so the working list is passed reversed and popped from the front. -/
def popLoop : ℕ → List ℕ × List ℕ × List ℕ → List ℕ × List ℕ × List ℕ
  | 0, p => p
  | n + 1, (xs, ss, x :: y :: ws) => popLoop n (xs ++ [x], ss ++ [y], ws)
  | _ + 1, p => p

/-- The pattern/indicator loop of `keygen` for one bank: for each size,
take that many digits as the wheel pattern, then parse the next 7 digits
and reduce them modulo the size to get the indicator entry. -/
def buildWheels : List ℕ → List ℕ → List (List ℕ) × List ℕ × List ℕ
  | [], buf => ([], [], buf)
  | sz :: rest, buf =>
    let r := buildWheels rest ((buf.drop sz).drop 7)
    (buf.take sz :: r.1, parseBin ((buf.drop sz).take 7) % sz :: r.2.1, r.2.2)

/-- The whole `keygen` branch: distribute the shuffled sizes, then build
the X bank and the S bank from the random digit buffer.  Returns
(X sizes, S sizes, X patterns, S patterns, indicator). -/
def keygen (shuffled buf : List ℕ) :
    List ℕ × List ℕ × List (List ℕ) × List (List ℕ) × List ℕ :=
  let p := popLoop 5 ([], [], shuffled.reverse)
  let bx := buildWheels p.1 buf
  let bs := buildWheels p.2.1 bx.2.2
  (p.1, p.2.1, bx.1, bs.1, bx.2.1 ++ bs.2.1)

/-!  Helper lemmas. -/

theorem parseBin_append_single (l : List ℕ) (d : ℕ) :
    parseBin (l ++ [d]) = 2 * parseBin l + d := by
  simp [parseBin, List.foldl_append]

theorem parseBin_replicate_zero (k : ℕ) (l : List ℕ) :
    parseBin (List.replicate k 0 ++ l) = parseBin l := by
  induction k with
  | zero => rfl
  | succ k ih =>
    have h : List.replicate (k + 1) 0 ++ l = 0 :: (List.replicate k 0 ++ l) := by
      simp [List.replicate_succ]
    rw [h]
    show (List.replicate k 0 ++ l).foldl (fun a d => 2 * a + d) (2 * 0 + 0) = parseBin l
    simpa [parseBin] using ih

theorem parseBin_toBinAux (fuel : ℕ) : ∀ n : ℕ, n ≤ fuel → parseBin (toBinAux fuel n) = n := by
  induction fuel with
  | zero =>
    intro n hn
    interval_cases n
    rfl
  | succ fuel ih =>
    intro n hn
    match n with
    | 0 => rfl
    | n + 1 =>
      rw [toBinAux, parseBin_append_single, ih ((n + 1) / 2) (by omega)]
      omega

theorem parseBin_format05b (n : ℕ) : parseBin (format05b n) = n := by
  rw [format05b, parseBin_replicate_zero, toBin, parseBin_toBinAux n n le_rfl]

theorem format05b_bits : ∀ n : ℕ, n < 32 →
    (format05b n).length = 5 ∧ ∀ d ∈ format05b n, d ≤ 1 := by decide

theorem format_parse_of_bits (p q r t u : ℕ)
    (hp : p ≤ 1) (hq : q ≤ 1) (hr : r ≤ 1) (ht : t ≤ 1) (hu : u ≤ 1) :
    format05b (parseBin [p, q, r, t, u]) = [p, q, r, t, u] := by
  interval_cases p <;> interval_cases q <;> interval_cases r <;>
    interval_cases t <;> interval_cases u <;> decide

theorem list_len5 (l : List ℕ) (h : l.length = 5) :
    ∃ p q r t u, l = [p, q, r, t, u] := by
  match l, h with
  | [p, q, r, t, u], _ => exact ⟨p, q, r, t, u, rfl⟩

theorem swapEnc_mod32 (s : ℕ) (l : List ℕ) : swapEnc (s % 32) l = swapEnc s l := by
  have h4 : (s % 32) >>> 4 &&& 1 = s >>> 4 &&& 1 := by
    simp only [Nat.shiftRight_eq_div_pow, Nat.and_one_is_mod]
    omega
  have h3 : (s % 32) >>> 3 &&& 1 = s >>> 3 &&& 1 := by
    simp only [Nat.shiftRight_eq_div_pow, Nat.and_one_is_mod]
    omega
  have h2 : (s % 32) >>> 2 &&& 1 = s >>> 2 &&& 1 := by
    simp only [Nat.shiftRight_eq_div_pow, Nat.and_one_is_mod]
    omega
  have h1 : (s % 32) >>> 1 &&& 1 = s >>> 1 &&& 1 := by
    simp only [Nat.shiftRight_eq_div_pow, Nat.and_one_is_mod]
    omega
  have h0 : s % 32 &&& 1 = s &&& 1 := by
    simp only [Nat.and_one_is_mod]
    omega
  simp only [swapEnc, h4, h3, h2, h1, h0]

theorem swapDec_mod32 (s : ℕ) (l : List ℕ) : swapDec (s % 32) l = swapDec s l := by
  have h4 : (s % 32) >>> 4 &&& 1 = s >>> 4 &&& 1 := by
    simp only [Nat.shiftRight_eq_div_pow, Nat.and_one_is_mod]
    omega
  have h3 : (s % 32) >>> 3 &&& 1 = s >>> 3 &&& 1 := by
    simp only [Nat.shiftRight_eq_div_pow, Nat.and_one_is_mod]
    omega
  have h2 : (s % 32) >>> 2 &&& 1 = s >>> 2 &&& 1 := by
    simp only [Nat.shiftRight_eq_div_pow, Nat.and_one_is_mod]
    omega
  have h1 : (s % 32) >>> 1 &&& 1 = s >>> 1 &&& 1 := by
    simp only [Nat.shiftRight_eq_div_pow, Nat.and_one_is_mod]
    omega
  have h0 : s % 32 &&& 1 = s &&& 1 := by
    simp only [Nat.and_one_is_mod]
    omega
  simp only [swapDec, h4, h3, h2, h1, h0]

theorem xor_lt32 : ∀ a : ℕ, a < 32 → ∀ b : ℕ, b < 32 → a ^^^ b < 32 := by decide

set_option maxRecDepth 4096 in
theorem core_inverse32 : ∀ s : ℕ, s < 32 → ∀ v : ℕ, v < 32 →
    parseBin (swapDec s (format05b (parseBin (swapEnc s (format05b v))))) = v := by decide

theorem swapEnc_zero (l : List ℕ) : swapEnc 0 l = l := rfl

theorem swapDec_zero (l : List ℕ) : swapDec 0 l = l := rfl

theorem listGetD_le_one (l : List ℕ) (i : ℕ) (h : ∀ d ∈ l, d ≤ 1) : l.getD i 0 ≤ 1 := by
  induction l generalizing i with
  | nil => simp [List.getD]
  | cons a t ih =>
    match i with
    | 0 => exact h a (List.mem_cons_self a t)
    | i + 1 =>
      exact ih i (fun d hd => h d (List.mem_cons_of_mem a hd))

theorem listGetD_mem {α : Type} (l : List α) (i : ℕ) (d : α) (h : i < l.length) :
    l.getD i d ∈ l := by
  induction l generalizing i with
  | nil => simp at h
  | cons a t ih =>
    match i with
    | 0 => exact List.mem_cons_self a t
    | i + 1 =>
      exact List.mem_cons_of_mem a (ih i (by simpa using h))

theorem listGetD_append_lt {α : Type} (l1 l2 : List α) (i : ℕ) (d : α) (h : i < l1.length) :
    (l1 ++ l2).getD i d = l1.getD i d := by
  induction l1 generalizing i with
  | nil => simp at h
  | cons a t ih =>
    match i with
    | 0 => rfl
    | i + 1 => exact ih i (by simpa using h)

theorem listGetD_append_ge {α : Type} (l1 l2 : List α) (i : ℕ) (d : α) :
    (l1 ++ l2).getD (l1.length + i) d = l2.getD i d := by
  induction l1 with
  | nil => simp
  | cons a t ih => simpa [Nat.succ_add] using ih

theorem get_val_formula (b : WheelBank) :
    b.get_val =
      2 * (2 * (2 * (2 * (2 * 0 + (b.wheels.getD 4 default).get_val)
        + (b.wheels.getD 3 default).get_val)
        + (b.wheels.getD 2 default).get_val)
        + (b.wheels.getD 1 default).get_val)
        + (b.wheels.getD 0 default).get_val := rfl

theorem wheel_val_le_one (w : Wheel) (h : ∀ d ∈ w.wheel_data, d ≤ 1) : w.get_val ≤ 1 :=
  listGetD_le_one _ _ h

theorem bank_val_le_one (b : WheelBank)
    (h : ∀ w ∈ b.wheels, ∀ d ∈ w.wheel_data, d ≤ 1) (i : ℕ) :
    (b.wheels.getD i default).get_val ≤ 1 := by
  by_cases hi : i < b.wheels.length
  · exact wheel_val_le_one _ (h _ (listGetD_mem _ _ _ hi))
  · rw [List.getD_eq_default _ _ (le_of_not_lt hi)]
    decide

theorem get_val_lt32 (b : WheelBank)
    (h : ∀ w ∈ b.wheels, ∀ d ∈ w.wheel_data, d ≤ 1) : b.get_val < 32 := by
  have h0 := bank_val_le_one b h 0
  have h1 := bank_val_le_one b h 1
  have h2 := bank_val_le_one b h 2
  have h3 := bank_val_le_one b h 3
  have h4 := bank_val_le_one b h 4
  rw [get_val_formula]
  omega

theorem step_inverse (m : SFM_T52a) (c : ℕ)
    (hw : ∀ w ∈ m.X_wheels.wheels, ∀ d ∈ w.wheel_data, d ≤ 1) (hc : c < 32) :
    (m.decrypt_char (m.encrypt_char c).1).1 = c := by
  have hx : m.X_wheels.get_val < 32 := get_val_lt32 _ hw
  have hcx : c ^^^ m.X_wheels.get_val < 32 := xor_lt32 c hc _ hx
  show parseBin (swapDec m.S_wheels.get_val (format05b
      (parseBin (swapEnc m.S_wheels.get_val (format05b (c ^^^ m.X_wheels.get_val))))))
      ^^^ m.X_wheels.get_val = c
  rw [← swapEnc_mod32, ← swapDec_mod32,
    core_inverse32 (m.S_wheels.get_val % 32) (Nat.mod_lt _ (by norm_num)) _ hcx,
    Nat.xor_assoc, Nat.xor_self, Nat.xor_zero]

theorem advance_bits (m : SFM_T52a)
    (hw : ∀ w ∈ m.X_wheels.wheels, ∀ d ∈ w.wheel_data, d ≤ 1) :
    ∀ w ∈ m.advance.X_wheels.wheels, ∀ d ∈ w.wheel_data, d ≤ 1 := by
  intro w hmem
  simp only [SFM_T52a.advance, WheelBank.advance, List.mem_map] at hmem
  obtain ⟨w0, hw0, rfl⟩ := hmem
  exact hw w0 hw0

theorem stream_inverse : ∀ (u : List ℕ) (m : SFM_T52a),
    (∀ w ∈ m.X_wheels.wheels, ∀ d ∈ w.wheel_data, d ≤ 1) →
    (∀ c ∈ u, c < 32) →
    (m.decrypt (m.encrypt u).1).1 = u := by
  intro u
  induction u with
  | nil => intro m _ _; rfl
  | cons c rest ih =>
    intro m hw hu
    have hc : c < 32 := hu c (List.mem_cons_self c rest)
    have hrest : ∀ x ∈ rest, x < 32 := fun x hx => hu x (List.mem_cons_of_mem c hx)
    show (m.decrypt_char (m.encrypt_char c).1).1 ::
        (SFM_T52a.decrypt (m.decrypt_char (m.encrypt_char c).1).2
          (SFM_T52a.encrypt (m.encrypt_char c).2 rest).1).1 = c :: rest
    rw [step_inverse m c hw hc]
    have tail : (SFM_T52a.decrypt (m.decrypt_char (m.encrypt_char c).1).2
        (SFM_T52a.encrypt (m.encrypt_char c).2 rest).1).1 = rest :=
      ih m.advance (advance_bits m hw) hrest
    rw [tail]

theorem wheel_iterate_state (w : Wheel) (n : ℕ) (h2 : w.state < w.wheel_size) :
    Wheel.advance^[n] w = ⟨w.wheel_data, (w.state + n) % w.wheel_size⟩ := by
  induction n with
  | zero =>
    conv_rhs => rw [Nat.add_zero, Nat.mod_eq_of_lt h2]
    rfl
  | succ n ih =>
    rw [Function.iterate_succ_apply', ih]
    show (⟨w.wheel_data, ((w.state + n) % w.wheel_size + 1) % w.wheel_size⟩ : Wheel) = _
    rw [Nat.mod_add_mod]
    rfl

theorem wheel_period (w : Wheel) (N : ℕ) (h2 : w.state < w.wheel_size)
    (hd : w.wheel_size ∣ N) : Wheel.advance^[N] w = w := by
  rw [wheel_iterate_state w N h2]
  obtain ⟨k, rfl⟩ := hd
  have h : (w.state + w.wheel_size * k) % w.wheel_size = w.state := by
    rw [Nat.add_mul_mod_self_left, Nat.mod_eq_of_lt h2]
  rw [h]

theorem bank_iterate (b : WheelBank) (n : ℕ) :
    WheelBank.advance^[n] b = ⟨b.wheels.map (Wheel.advance^[n])⟩ := by
  induction n with
  | zero => simp
  | succ n ih =>
    rw [Function.iterate_succ_apply', ih]
    show WheelBank.advance ⟨b.wheels.map (Wheel.advance^[n])⟩ = _
    simp only [WheelBank.advance, List.map_map]
    rw [← Function.iterate_succ']

theorem machine_iterate (m : SFM_T52a) (n : ℕ) :
    SFM_T52a.advance^[n] m =
      ⟨⟨m.X_wheels.wheels.map (Wheel.advance^[n])⟩,
       ⟨m.S_wheels.wheels.map (Wheel.advance^[n])⟩⟩ := by
  induction n with
  | zero => simp
  | succ n ih =>
    rw [Function.iterate_succ_apply', ih]
    show SFM_T52a.advance _ = _
    simp only [SFM_T52a.advance, WheelBank.advance, List.map_map]
    rw [← Function.iterate_succ']

/-!  Claim theorems, C1 to C7. -/

/-- C1: for every key material (ten bit patterns with entries in 0/1 and
positive lengths, ten in-range initial positions) and every sequence of
units in [0,31], decrypting the encryption with a freshly constructed
machine from the same material returns the original sequence. -/
theorem c1_cipher_roundtrip (X S : List (List ℕ)) (init u : List ℕ)
    (_hX : X.length = 5) (_hS : S.length = 5) (_hinit : init.length = 10)
    (hpat : ∀ p ∈ X ++ S, 0 < p.length ∧ ∀ d ∈ p, d ≤ 1)
    (_hpos : ∀ i, i < 10 → init.getD i 0 < ((X ++ S).getD i []).length)
    (hu : ∀ c ∈ u, c < 32) :
    ((mkSFM_T52a X S init).decrypt ((mkSFM_T52a X S init).encrypt u).1).1 = u := by
  apply stream_inverse
  · intro w hwm
    simp only [mkSFM_T52a] at hwm
    rw [List.mem_map] at hwm
    obtain ⟨⟨p1, p2⟩, hp, rfl⟩ := hwm
    intro d hd
    exact (hpat p1 (List.mem_append_left _ (List.of_mem_zip hp).1)).2 d hd
  · exact hu

/-- Witness for C1 at a concrete key and message. -/
theorem c1_cipher_roundtrip_witness :
    ((mkSFM_T52a [[1], [0], [1], [0], [1]] [[1], [1], [0], [0], [1]]
        [0, 0, 0, 0, 0, 0, 0, 0, 0, 0]).decrypt
      ((mkSFM_T52a [[1], [0], [1], [0], [1]] [[1], [1], [0], [0], [1]]
        [0, 0, 0, 0, 0, 0, 0, 0, 0, 0]).encrypt [10, 31, 0, 21]).1).1 = [10, 31, 0, 21] :=
  c1_cipher_roundtrip _ _ _ _ (by decide) (by decide) (by decide) (by decide)
    (by decide) (by decide)

/-- C2: each of the five swap steps of the transform is an involution on
five-digit lists, and each acts exactly on the positions named for it
(s-bit 4 swaps the outer digits, s-bit 3 the last two, s-bit 2 the middle
two, s-bit 1 positions 1 and 2, s-bit 0 the first two), leaving every
other position unchanged. -/
theorem c2_swap_involution (p0 p1 p2 p3 p4 : ℕ) :
    (swap4 (swap4 [p0, p1, p2, p3, p4]) = [p0, p1, p2, p3, p4] ∧
      swap4 [p0, p1, p2, p3, p4] = [p4, p1, p2, p3, p0]) ∧
    (swap3 (swap3 [p0, p1, p2, p3, p4]) = [p0, p1, p2, p3, p4] ∧
      swap3 [p0, p1, p2, p3, p4] = [p0, p1, p2, p4, p3]) ∧
    (swap2 (swap2 [p0, p1, p2, p3, p4]) = [p0, p1, p2, p3, p4] ∧
      swap2 [p0, p1, p2, p3, p4] = [p0, p1, p3, p2, p4]) ∧
    (swap1 (swap1 [p0, p1, p2, p3, p4]) = [p0, p1, p2, p3, p4] ∧
      swap1 [p0, p1, p2, p3, p4] = [p0, p2, p1, p3, p4]) ∧
    (swap0 (swap0 [p0, p1, p2, p3, p4]) = [p0, p1, p2, p3, p4] ∧
      swap0 [p0, p1, p2, p3, p4] = [p1, p0, p2, p3, p4]) :=
  ⟨⟨rfl, rfl⟩, ⟨rfl, rfl⟩, ⟨rfl, rfl⟩, ⟨rfl, rfl⟩, ⟨rfl, rfl⟩⟩

/-- C3: when the S bank reads 0 no swap fires, so `encrypt_char c` is
exactly `c XOR x` with `x` the X value before advancing, and
`decrypt_char` applied to that output at the same state returns `c`. -/
theorem c3_identity_case (m : SFM_T52a) (c : ℕ) (_hc : c < 32)
    (hs : m.S_wheels.get_val = 0) :
    (m.encrypt_char c).1 = c ^^^ m.X_wheels.get_val ∧
    (m.decrypt_char (m.encrypt_char c).1).1 = c := by
  have he : (m.encrypt_char c).1 = c ^^^ m.X_wheels.get_val := by
    show parseBin (swapEnc m.S_wheels.get_val (format05b (c ^^^ m.X_wheels.get_val))) = _
    rw [hs, swapEnc_zero, parseBin_format05b]
  refine ⟨he, ?_⟩
  show parseBin (swapDec m.S_wheels.get_val (format05b (m.encrypt_char c).1))
      ^^^ m.X_wheels.get_val = c
  rw [he, hs, swapDec_zero, parseBin_format05b, Nat.xor_assoc, Nat.xor_self, Nat.xor_zero]

/-- Witness for C3 at a concrete all-zero machine. -/
theorem c3_identity_case_witness :
    (zeroSFM.encrypt_char 21).1 = 21 ^^^ zeroSFM.X_wheels.get_val ∧
    (zeroSFM.decrypt_char (zeroSFM.encrypt_char 21).1).1 = 21 :=
  c3_identity_case zeroSFM 21 (by decide) (by decide)

/-- C4 counterexample: at the out-of-range input 32 (with all-zero
wheels) `encrypt_char` and `decrypt_char` do not fail: both return 32,
a value that is itself not masked down to 5 bits. -/
theorem c4_counterexample :
    (zeroSFM.encrypt_char 32).1 = 32 ∧ (zeroSFM.decrypt_char 32).1 = 32 ∧
    (zeroSFM.encrypt_char 32).1 % 32 ≠ (zeroSFM.encrypt_char 32).1 := by decide

/-- C4 amended: out-of-range inputs are not rejected; the transform is
applied to the full binary representation of the input without masking
(with all-zero wheels every input, also each one at or above 32, is
returned unchanged by both directions). -/
theorem c4_no_input_validation (c : ℕ) (_hc : 32 ≤ c) :
    (zeroSFM.encrypt_char c).1 = c ∧ (zeroSFM.decrypt_char c).1 = c := by
  have hs : zeroSFM.S_wheels.get_val = 0 := rfl
  have hx : zeroSFM.X_wheels.get_val = 0 := rfl
  constructor
  · show parseBin (swapEnc zeroSFM.S_wheels.get_val
        (format05b (c ^^^ zeroSFM.X_wheels.get_val))) = c
    rw [hs, hx, swapEnc_zero, Nat.xor_zero, parseBin_format05b]
  · show parseBin (swapDec zeroSFM.S_wheels.get_val (format05b c))
        ^^^ zeroSFM.X_wheels.get_val = c
    rw [hs, hx, swapDec_zero, parseBin_format05b, Nat.xor_zero]

/-- Witness for the amended C4 at the concrete out-of-range input 40. -/
theorem c4_no_input_validation_witness :
    (zeroSFM.encrypt_char 40).1 = 40 ∧ (zeroSFM.decrypt_char 40).1 = 40 :=
  c4_no_input_validation 40 (by decide)

/-- C5: for a bank of five wheels with bit-valued patterns, `get_val` is
in [0,31] and its bit `i` (0 = least significant) is wheel `i`'s pattern
bit at that wheel's current position. -/
theorem c5_wheelbank_value (b : WheelBank) (_h5 : b.wheels.length = 5)
    (hbits : ∀ w ∈ b.wheels, ∀ d ∈ w.wheel_data, d ≤ 1) :
    b.get_val < 32 ∧
    ∀ i, i < 5 → b.get_val / 2 ^ i % 2 = (b.wheels.getD i default).get_val := by
  have h0 := bank_val_le_one b hbits 0
  have h1 := bank_val_le_one b hbits 1
  have h2 := bank_val_le_one b hbits 2
  have h3 := bank_val_le_one b hbits 3
  have h4 := bank_val_le_one b hbits 4
  refine ⟨get_val_lt32 b hbits, ?_⟩
  intro i hi
  rw [get_val_formula]
  interval_cases i <;>
    simp only [show (2 : ℕ) ^ 0 = 1 from rfl, show (2 : ℕ) ^ 1 = 2 from rfl,
      show (2 : ℕ) ^ 2 = 4 from rfl, show (2 : ℕ) ^ 3 = 8 from rfl,
      show (2 : ℕ) ^ 4 = 16 from rfl] <;> omega

/-- Witness for C5 at a concrete bank. -/
theorem c5_wheelbank_value_witness :
    sampleBank.get_val < 32 ∧
    ∀ i, i < 5 → sampleBank.get_val / 2 ^ i % 2 = (sampleBank.wheels.getD i default).get_val :=
  c5_wheelbank_value sampleBank (by decide) (by decide)

/-- C6: a five-wheel bank returns to its exact state after lcm of its
five lengths advances, and the whole machine returns to its state after
lcm of all ten lengths advances (positions valid, lengths positive). -/
theorem c6_period :
    (∀ (b : WheelBank) (w0 w1 w2 w3 w4 : Wheel),
      b.wheels = [w0, w1, w2, w3, w4] →
      (∀ w ∈ b.wheels, 0 < w.wheel_size ∧ w.state < w.wheel_size) →
      WheelBank.advance^[Nat.lcm w0.wheel_size (Nat.lcm w1.wheel_size
        (Nat.lcm w2.wheel_size (Nat.lcm w3.wheel_size w4.wheel_size)))] b = b) ∧
    (∀ (m : SFM_T52a) (x0 x1 x2 x3 x4 s0 s1 s2 s3 s4 : Wheel),
      m.X_wheels.wheels = [x0, x1, x2, x3, x4] →
      m.S_wheels.wheels = [s0, s1, s2, s3, s4] →
      (∀ w ∈ m.X_wheels.wheels, 0 < w.wheel_size ∧ w.state < w.wheel_size) →
      (∀ w ∈ m.S_wheels.wheels, 0 < w.wheel_size ∧ w.state < w.wheel_size) →
      SFM_T52a.advance^[Nat.lcm x0.wheel_size (Nat.lcm x1.wheel_size
        (Nat.lcm x2.wheel_size (Nat.lcm x3.wheel_size (Nat.lcm x4.wheel_size
        (Nat.lcm s0.wheel_size (Nat.lcm s1.wheel_size (Nat.lcm s2.wheel_size
        (Nat.lcm s3.wheel_size s4.wheel_size))))))))] m = m) := by
  constructor
  · intro b w0 w1 w2 w3 w4 hbw hvalid
    obtain ⟨ws⟩ := b
    simp only at hbw
    subst hbw
    have hv0 := hvalid w0 (by simp)
    have hv1 := hvalid w1 (by simp)
    have hv2 := hvalid w2 (by simp)
    have hv3 := hvalid w3 (by simp)
    have hv4 := hvalid w4 (by simp)
    rw [bank_iterate]
    simp only [List.map_cons, List.map_nil]
    rw [wheel_period w0 _ hv0.2 (Nat.dvd_lcm_left _ _),
      wheel_period w1 _ hv1.2 ((Nat.dvd_lcm_left _ _).trans (Nat.dvd_lcm_right _ _)),
      wheel_period w2 _ hv2.2 (((Nat.dvd_lcm_left _ _).trans
        (Nat.dvd_lcm_right _ _)).trans (Nat.dvd_lcm_right _ _)),
      wheel_period w3 _ hv3.2 ((((Nat.dvd_lcm_left _ _).trans
        (Nat.dvd_lcm_right _ _)).trans (Nat.dvd_lcm_right _ _)).trans (Nat.dvd_lcm_right _ _)),
      wheel_period w4 _ hv4.2 ((((Nat.dvd_lcm_right _ _).trans
        (Nat.dvd_lcm_right _ _)).trans (Nat.dvd_lcm_right _ _)).trans (Nat.dvd_lcm_right _ _))]
  · intro m x0 x1 x2 x3 x4 s0 s1 s2 s3 s4 hxw hsw hxv hsv
    obtain ⟨⟨xs⟩, ⟨ss⟩⟩ := m
    simp only at hxw hsw
    subst hxw
    subst hsw
    have hv0 := hxv x0 (by simp)
    have hv1 := hxv x1 (by simp)
    have hv2 := hxv x2 (by simp)
    have hv3 := hxv x3 (by simp)
    have hv4 := hxv x4 (by simp)
    have hw0 := hsv s0 (by simp)
    have hw1 := hsv s1 (by simp)
    have hw2 := hsv s2 (by simp)
    have hw3 := hsv s3 (by simp)
    have hw4 := hsv s4 (by simp)
    rw [machine_iterate]
    simp only [List.map_cons, List.map_nil]
    rw [wheel_period x0 _ hv0.2 (Nat.dvd_lcm_left _ _),
      wheel_period x1 _ hv1.2 ((Nat.dvd_lcm_left _ _).trans (Nat.dvd_lcm_right _ _)),
      wheel_period x2 _ hv2.2 (((Nat.dvd_lcm_left _ _).trans
        (Nat.dvd_lcm_right _ _)).trans (Nat.dvd_lcm_right _ _)),
      wheel_period x3 _ hv3.2 ((((Nat.dvd_lcm_left _ _).trans
        (Nat.dvd_lcm_right _ _)).trans (Nat.dvd_lcm_right _ _)).trans (Nat.dvd_lcm_right _ _)),
      wheel_period x4 _ hv4.2 (((((Nat.dvd_lcm_left _ _).trans
        (Nat.dvd_lcm_right _ _)).trans (Nat.dvd_lcm_right _ _)).trans
        (Nat.dvd_lcm_right _ _)).trans (Nat.dvd_lcm_right _ _)),
      wheel_period s0 _ hw0.2 ((((((Nat.dvd_lcm_left _ _).trans
        (Nat.dvd_lcm_right _ _)).trans (Nat.dvd_lcm_right _ _)).trans
        (Nat.dvd_lcm_right _ _)).trans (Nat.dvd_lcm_right _ _)).trans (Nat.dvd_lcm_right _ _)),
      wheel_period s1 _ hw1.2 (((((((Nat.dvd_lcm_left _ _).trans
        (Nat.dvd_lcm_right _ _)).trans (Nat.dvd_lcm_right _ _)).trans
        (Nat.dvd_lcm_right _ _)).trans (Nat.dvd_lcm_right _ _)).trans
        (Nat.dvd_lcm_right _ _)).trans (Nat.dvd_lcm_right _ _)),
      wheel_period s2 _ hw2.2 ((((((((Nat.dvd_lcm_left _ _).trans
        (Nat.dvd_lcm_right _ _)).trans (Nat.dvd_lcm_right _ _)).trans
        (Nat.dvd_lcm_right _ _)).trans (Nat.dvd_lcm_right _ _)).trans
        (Nat.dvd_lcm_right _ _)).trans (Nat.dvd_lcm_right _ _)).trans (Nat.dvd_lcm_right _ _)),
      wheel_period s3 _ hw3.2 (((((((((Nat.dvd_lcm_left _ _).trans
        (Nat.dvd_lcm_right _ _)).trans (Nat.dvd_lcm_right _ _)).trans
        (Nat.dvd_lcm_right _ _)).trans (Nat.dvd_lcm_right _ _)).trans
        (Nat.dvd_lcm_right _ _)).trans (Nat.dvd_lcm_right _ _)).trans
        (Nat.dvd_lcm_right _ _)).trans (Nat.dvd_lcm_right _ _)),
      wheel_period s4 _ hw4.2 (((((((((Nat.dvd_lcm_right _ _).trans
        (Nat.dvd_lcm_right _ _)).trans (Nat.dvd_lcm_right _ _)).trans
        (Nat.dvd_lcm_right _ _)).trans (Nat.dvd_lcm_right _ _)).trans
        (Nat.dvd_lcm_right _ _)).trans (Nat.dvd_lcm_right _ _)).trans
        (Nat.dvd_lcm_right _ _)).trans (Nat.dvd_lcm_right _ _))]

/-- Witness for C6 at a concrete bank and the all-zero machine. -/
theorem c6_period_witness :
    WheelBank.advance^[Nat.lcm (Wheel.mk [1] 0).wheel_size (Nat.lcm (Wheel.mk [0, 1] 1).wheel_size
      (Nat.lcm (Wheel.mk [1, 1, 0] 0).wheel_size (Nat.lcm (Wheel.mk [0] 0).wheel_size
      (Wheel.mk [1, 0] 0).wheel_size)))] sampleBank = sampleBank ∧
    SFM_T52a.advance^[Nat.lcm (Wheel.mk [0] 0).wheel_size (Nat.lcm (Wheel.mk [0] 0).wheel_size
      (Nat.lcm (Wheel.mk [0] 0).wheel_size (Nat.lcm (Wheel.mk [0] 0).wheel_size
      (Nat.lcm (Wheel.mk [0] 0).wheel_size (Nat.lcm (Wheel.mk [0] 0).wheel_size
      (Nat.lcm (Wheel.mk [0] 0).wheel_size (Nat.lcm (Wheel.mk [0] 0).wheel_size
      (Nat.lcm (Wheel.mk [0] 0).wheel_size (Wheel.mk [0] 0).wheel_size))))))))] zeroSFM = zeroSFM :=
  ⟨c6_period.1 sampleBank _ _ _ _ _ rfl (by decide),
   c6_period.2 zeroSFM _ _ _ _ _ _ _ _ _ _ rfl rfl (by decide) (by decide)⟩

/-- C7: every `encrypt_char` or `decrypt_char` call (in-range input)
advances the position of each of the ten wheels by exactly +1 modulo its
own length and changes nothing else: every pattern is kept and the banks
are otherwise untouched. -/
theorem c7_frame_advance (m : SFM_T52a) (c : ℕ) (_hc : c < 32) :
    ((m.encrypt_char c).2 =
      ⟨⟨m.X_wheels.wheels.map fun w => ⟨w.wheel_data, (w.state + 1) % w.wheel_data.length⟩⟩,
       ⟨m.S_wheels.wheels.map fun w => ⟨w.wheel_data, (w.state + 1) % w.wheel_data.length⟩⟩⟩) ∧
    ((m.decrypt_char c).2 =
      ⟨⟨m.X_wheels.wheels.map fun w => ⟨w.wheel_data, (w.state + 1) % w.wheel_data.length⟩⟩,
       ⟨m.S_wheels.wheels.map fun w => ⟨w.wheel_data, (w.state + 1) % w.wheel_data.length⟩⟩⟩) :=
  ⟨rfl, rfl⟩

/-- Witness for C7 at the all-zero machine. -/
theorem c7_frame_advance_witness :
    ((zeroSFM.encrypt_char 0).2 =
      ⟨⟨zeroSFM.X_wheels.wheels.map fun w => ⟨w.wheel_data, (w.state + 1) % w.wheel_data.length⟩⟩,
       ⟨zeroSFM.S_wheels.wheels.map fun w => ⟨w.wheel_data, (w.state + 1) % w.wheel_data.length⟩⟩⟩) ∧
    ((zeroSFM.decrypt_char 0).2 =
      ⟨⟨zeroSFM.X_wheels.wheels.map fun w => ⟨w.wheel_data, (w.state + 1) % w.wheel_data.length⟩⟩,
       ⟨zeroSFM.S_wheels.wheels.map fun w => ⟨w.wheel_data, (w.state + 1) % w.wheel_data.length⟩⟩⟩) :=
  c7_frame_advance zeroSFM 0 (by decide)

/-!  Codec lemmas. -/

instance decGoodStep (b : ℕ) : Decidable (GoodStep b) := by
  unfold GoodStep
  infer_instance

theorem goodStep_of_mem : ∀ b ∈ goodBytes, GoodStep b := by decide

theorem a2t_cons_inv (figs : Bool) (b : ℕ) (l : List ℕ)
    (h : asc2tty.getD (b % 128) 255 = 255) :
    a2tLoop figs (b :: l) = a2tLoop figs l := by
  simp only [a2tLoop]
  rw [if_pos h]

theorem a2t_cons_either (figs : Bool) (b : ℕ) (l : List ℕ)
    (h255 : asc2tty.getD (b % 128) 255 ≠ 255)
    (h6 : (asc2tty.getD (b % 128) 255).testBit 6 = true) :
    a2tLoop figs (b :: l) = asc2tty.getD (b % 128) 255 % 32 :: a2tLoop figs l := by
  simp only [a2tLoop]
  rw [if_neg h255, if_pos h6]

theorem a2t_figsreq_t (b : ℕ) (l : List ℕ)
    (h255 : asc2tty.getD (b % 128) 255 ≠ 255)
    (h6 : (asc2tty.getD (b % 128) 255).testBit 6 = false)
    (h7 : (asc2tty.getD (b % 128) 255).testBit 7 = true) :
    a2tLoop true (b :: l) = asc2tty.getD (b % 128) 255 % 32 :: a2tLoop true l := by
  simp only [a2tLoop]
  rw [if_neg h255, if_neg (by rw [h6]; decide), if_pos h7]
  simp

theorem a2t_figsreq_f (b : ℕ) (l : List ℕ)
    (h255 : asc2tty.getD (b % 128) 255 ≠ 255)
    (h6 : (asc2tty.getD (b % 128) 255).testBit 6 = false)
    (h7 : (asc2tty.getD (b % 128) 255).testBit 7 = true) :
    a2tLoop false (b :: l) = 27 :: asc2tty.getD (b % 128) 255 % 32 :: a2tLoop true l := by
  simp only [a2tLoop]
  rw [if_neg h255, if_neg (by rw [h6]; decide), if_pos h7]
  simp

theorem a2t_ltrsreq_t (b : ℕ) (l : List ℕ)
    (h255 : asc2tty.getD (b % 128) 255 ≠ 255)
    (h6 : (asc2tty.getD (b % 128) 255).testBit 6 = false)
    (h7 : (asc2tty.getD (b % 128) 255).testBit 7 = false) :
    a2tLoop true (b :: l) = 31 :: asc2tty.getD (b % 128) 255 % 32 :: a2tLoop false l := by
  simp only [a2tLoop]
  rw [if_neg h255, if_neg (by rw [h6]; decide), if_neg (by rw [h7]; decide)]
  simp

theorem a2t_ltrsreq_f (b : ℕ) (l : List ℕ)
    (h255 : asc2tty.getD (b % 128) 255 ≠ 255)
    (h6 : (asc2tty.getD (b % 128) 255).testBit 6 = false)
    (h7 : (asc2tty.getD (b % 128) 255).testBit 7 = false) :
    a2tLoop false (b :: l) = asc2tty.getD (b % 128) 255 % 32 :: a2tLoop false l := by
  simp only [a2tLoop]
  rw [if_neg h255, if_neg (by rw [h6]; decide), if_neg (by rw [h7]; decide)]
  simp

theorem t2a_cons_ltrs (figs : Bool) (l : List ℕ) :
    t2aLoop figs (31 :: l) = t2aLoop false l := by
  simp only [t2aLoop]
  norm_num

theorem t2a_cons_figs (figs : Bool) (l : List ℕ) :
    t2aLoop figs (27 :: l) = t2aLoop true l := by
  simp only [t2aLoop]
  norm_num

theorem t2a_data_t (c : ℕ) (l : List ℕ)
    (h27 : c % 32 ≠ 27) (h31 : c % 32 ≠ 31) :
    t2aLoop true (c :: l) = tty_figs2asc.getD (c % 32) 0 :: t2aLoop true l := by
  simp only [t2aLoop]
  rw [if_neg h31, if_neg h27]
  simp

theorem t2a_data_f (c : ℕ) (l : List ℕ)
    (h27 : c % 32 ≠ 27) (h31 : c % 32 ≠ 31) :
    t2aLoop false (c :: l) = tty_ltrs2asc.getD (c % 32) 0 :: t2aLoop false l := by
  simp only [t2aLoop]
  rw [if_neg h31, if_neg h27]
  simp

theorem codec_loop : ∀ (s : List ℕ) (figs : Bool),
    (∀ b ∈ s, GoodStep b ∨ asc2tty.getD (b % 128) 255 = 255) →
    t2aLoop figs (a2tLoop figs s) = upperFilter s := by
  intro s
  induction s with
  | nil => intro figs _; rfl
  | cons b rest ih =>
    intro figs hall
    have hrest : ∀ x ∈ rest, GoodStep x ∨ asc2tty.getD (x % 128) 255 = 255 :=
      fun x hx => hall x (List.mem_cons_of_mem b hx)
    rcases hall b (List.mem_cons_self b rest) with hg | hinv
    · obtain ⟨h255, h27, h31, hE, hF, hL⟩ := hg
      have hmm : asc2tty.getD (b % 128) 255 % 32 % 32 = asc2tty.getD (b % 128) 255 % 32 :=
        Nat.mod_mod_of_dvd _ dvd_rfl
      have h27b : asc2tty.getD (b % 128) 255 % 32 % 32 ≠ 27 := by rw [hmm]; exact h27
      have h31b : asc2tty.getD (b % 128) 255 % 32 % 32 ≠ 31 := by rw [hmm]; exact h31
      have hfm : upperFilter (b :: rest) = upperByte b :: upperFilter rest := by
        simp only [upperFilter, List.filterMap_cons, if_neg h255]
      cases h6 : (asc2tty.getD (b % 128) 255).testBit 6 with
      | true =>
        rcases hE h6 with ⟨hEl, hEf⟩
        rw [a2t_cons_either figs b rest h255 h6]
        cases figs with
        | true =>
          rw [t2a_data_t _ _ h27b h31b, hmm, hEf, ih true hrest, hfm]
        | false =>
          rw [t2a_data_f _ _ h27b h31b, hmm, hEl, ih false hrest, hfm]
      | false =>
        cases h7 : (asc2tty.getD (b % 128) 255).testBit 7 with
        | true =>
          have hdec := hF h6 h7
          cases figs with
          | true =>
            rw [a2t_figsreq_t b rest h255 h6 h7, t2a_data_t _ _ h27b h31b, hmm, hdec,
              ih true hrest, hfm]
          | false =>
            rw [a2t_figsreq_f b rest h255 h6 h7, t2a_cons_figs false _,
              t2a_data_t _ _ h27b h31b, hmm, hdec, ih true hrest, hfm]
        | false =>
          have hdec := hL h6 h7
          cases figs with
          | true =>
            rw [a2t_ltrsreq_t b rest h255 h6 h7, t2a_cons_ltrs true _,
              t2a_data_f _ _ h27b h31b, hmm, hdec, ih false hrest, hfm]
          | false =>
            rw [a2t_ltrsreq_f b rest h255 h6 h7, t2a_data_f _ _ h27b h31b, hmm, hdec,
              ih false hrest, hfm]
    · rw [a2t_cons_inv figs b rest hinv, ih figs hrest]
      simp only [upperFilter, List.filterMap_cons, if_pos hinv]

/-- C9 counterexample: the byte 60 is punctuation the encode table maps
(to the same unit as 40), yet decoding its encoding yields 40, not 60:
the round trip is not the identity on all mapped punctuation. -/
theorem c9_counterexample :
    tty2ascii (ascii2tty [60]) = [40] ∧ (40 : ℕ) ≠ 60 := by decide

/-- C9 amended: for byte sequences over letters, digits, space and the
punctuation 36, 39, 40, 41, 43, 44, 45, 46, 47, 58, 61, 63 (codes of
dollar, quote, parentheses, plus, comma, minus, full stop, slash, colon,
equal, question mark), mixed freely with unmapped bytes, decoding the
encoding returns the sequence upper-cased with the unmapped bytes
dropped.  The remaining mapped punctuation (60, 62, 91, 93, 123, 125,
126) shares codes with 40, 41 and 7 and decodes to those canonical
bytes, so it is excluded from the identity subset. -/
theorem c9_codec_roundtrip (s : List ℕ)
    (h : ∀ b ∈ s, b ∈ goodBytes ∨ asc2tty.getD (b % 128) 255 = 255) :
    tty2ascii (ascii2tty s) = upperFilter s := by
  have hall : ∀ b ∈ s, GoodStep b ∨ asc2tty.getD (b % 128) 255 = 255 := by
    intro b hb
    rcases h b hb with hgood | hinv
    · exact Or.inl (goodStep_of_mem b hgood)
    · exact Or.inr hinv
  cases s with
  | nil => rfl
  | cons b rest =>
    show tty2ascii (ascii2tty (b :: rest)) = _
    simp only [ascii2tty]
    by_cases h6 : (asc2tty.getD (b % 128) 255).testBit 6 = true
    · rw [if_pos h6]
      exact codec_loop (b :: rest) false hall
    · rw [if_neg h6]
      by_cases h7 : (asc2tty.getD (b % 128) 255).testBit 7 = true
      · rw [if_pos h7]
        show t2aLoop false (27 :: a2tLoop true (b :: rest)) = _
        rw [t2a_cons_figs false _]
        exact codec_loop (b :: rest) true hall
      · rw [if_neg h7]
        show t2aLoop false (31 :: a2tLoop false (b :: rest)) = _
        rw [t2a_cons_ltrs false _]
        exact codec_loop (b :: rest) false hall

/-- Witness for the amended C9 on a concrete mixed stream: lower case a,
an unmapped byte (33), space, dollar and upper case Z. -/
theorem c9_codec_roundtrip_witness :
    tty2ascii (ascii2tty [97, 33, 32, 36, 90]) = upperFilter [97, 33, 32, 36, 90] :=
  c9_codec_roundtrip [97, 33, 32, 36, 90] (by decide)

/-- C10 counterexample: for the stream [33, 65] (an unmapped byte
followed by upper case A, which requires the letters shift) the first
encodable byte requires letters, yet the encoder emits no letters-shift
unit at all: the initial shift is taken from the literal first byte, not
from the first encodable byte. -/
theorem c10_counterexample :
    ascii2tty [33, 65] = [24] ∧ ¬(31 ∈ ascii2tty [33, 65]) := by decide

/-- C10 amended: the initial shift is determined by the table entry of
the literal first byte of the stream (unmapped bytes carry the
either-shift flag): a first byte that requires figures makes the encoder
emit the figures-shift unit and then its code; one that requires letters
makes it emit the letters-shift unit and then its code; when the stream
is empty, or its first byte is valid in either shift or unmapped, no
initial shift unit is emitted and conversion starts in letters state. -/
theorem c10_initial_shift (b : ℕ) (rest : List ℕ) :
    ascii2tty ([] : List ℕ) = [] ∧
    ((asc2tty.getD (b % 128) 255).testBit 6 = true →
      ascii2tty (b :: rest) = a2tLoop false (b :: rest)) ∧
    ((asc2tty.getD (b % 128) 255).testBit 6 = false →
      (asc2tty.getD (b % 128) 255).testBit 7 = true →
      ascii2tty (b :: rest) =
        27 :: asc2tty.getD (b % 128) 255 % 32 :: a2tLoop true rest) ∧
    ((asc2tty.getD (b % 128) 255).testBit 6 = false →
      (asc2tty.getD (b % 128) 255).testBit 7 = false →
      ascii2tty (b :: rest) =
        31 :: asc2tty.getD (b % 128) 255 % 32 :: a2tLoop false rest) := by
  have h255 : (asc2tty.getD (b % 128) 255).testBit 6 = false →
      asc2tty.getD (b % 128) 255 ≠ 255 := by
    intro h6 heq
    rw [heq] at h6
    exact absurd h6 (by decide)
  refine ⟨rfl, ?_, ?_, ?_⟩
  · intro h6
    simp only [ascii2tty]
    rw [if_pos h6]
  · intro h6 h7
    simp only [ascii2tty]
    rw [if_neg (by rw [h6]; decide), if_pos h7, a2t_figsreq_t b rest (h255 h6) h6 h7]
  · intro h6 h7
    simp only [ascii2tty]
    rw [if_neg (by rw [h6]; decide), if_neg (by rw [h7]; decide),
      a2t_ltrsreq_f b rest (h255 h6) h6 h7]

/-- Witness for the amended C10 at the letters-requiring first byte 65. -/
theorem c10_initial_shift_witness :
    ascii2tty [65] = 31 :: asc2tty.getD (65 % 128) 255 % 32 :: a2tLoop false [] :=
  (c10_initial_shift 65 []).2.2.2 (by decide) (by decide)

/-!  Keygen lemmas. -/

theorem cand_pos : ∀ s ∈ candidateSizes, 0 < s := by decide

theorem popLoop_spec : ∀ (n : ℕ) (xs ss ws : List ℕ), ws.length = 2 * n →
    (popLoop n (xs, ss, ws)).1.length = xs.length + n ∧
    (popLoop n (xs, ss, ws)).2.1.length = ss.length + n ∧
    ((popLoop n (xs, ss, ws)).1 ++ (popLoop n (xs, ss, ws)).2.1).Perm (xs ++ ss ++ ws) := by
  intro n
  induction n with
  | zero =>
    intro xs ss ws hw
    have hnil : ws = [] := List.eq_nil_of_length_eq_zero (by omega)
    subst hnil
    simp [popLoop]
  | succ n ih =>
    intro xs ss ws hw
    match ws, hw with
    | x :: y :: ws2, hw =>
      have hw2 : ws2.length = 2 * n := by simp at hw; omega
      have h := ih (xs ++ [x]) (ss ++ [y]) ws2 hw2
      refine ⟨?_, ?_, ?_⟩
      · show (popLoop n (xs ++ [x], ss ++ [y], ws2)).1.length = xs.length + (n + 1)
        have h1 := h.1
        simp [List.length_append] at h1
        omega
      · show (popLoop n (xs ++ [x], ss ++ [y], ws2)).2.1.length = ss.length + (n + 1)
        have h1 := h.2.1
        simp [List.length_append] at h1
        omega
      · show ((popLoop n (xs ++ [x], ss ++ [y], ws2)).1 ++
            (popLoop n (xs ++ [x], ss ++ [y], ws2)).2.1).Perm (xs ++ ss ++ (x :: y :: ws2))
        refine h.2.2.trans ?_
        rw [List.perm_iff_count]
        intro a
        simp [List.count_append, List.count_cons]
        omega

theorem buildWheels_spec : ∀ (sizes buf : List ℕ),
    (∀ s ∈ sizes, 0 < s) → (∀ d ∈ buf, d ≤ 1) →
    sizes.sum + 7 * sizes.length ≤ buf.length →
    (buildWheels sizes buf).1.length = sizes.length ∧
    (buildWheels sizes buf).2.1.length = sizes.length ∧
    (∀ i, i < sizes.length →
      ((buildWheels sizes buf).1.getD i []).length = sizes.getD i 0 ∧
      (∀ d ∈ (buildWheels sizes buf).1.getD i [], d ≤ 1) ∧
      (buildWheels sizes buf).2.1.getD i 0 < sizes.getD i 0) ∧
    (buildWheels sizes buf).2.2.length = buf.length - (sizes.sum + 7 * sizes.length) ∧
    (∀ d ∈ (buildWheels sizes buf).2.2, d ≤ 1) := by
  intro sizes
  induction sizes with
  | nil =>
    intro buf _ hbuf _
    refine ⟨rfl, rfl, ?_, by simp [buildWheels], hbuf⟩
    intro i hi
    simp at hi
  | cons sz rest ih =>
    intro buf hpos hbuf hsum
    have hszpos : 0 < sz := hpos sz (List.mem_cons_self _ _)
    have hrestpos : ∀ s ∈ rest, 0 < s := fun s hs => hpos s (List.mem_cons_of_mem _ hs)
    simp only [List.sum_cons, List.length_cons] at hsum
    have hb2entries : ∀ d ∈ (buf.drop sz).drop 7, d ≤ 1 := fun d hd =>
      hbuf d (List.drop_subset _ _ (List.drop_subset _ _ hd))
    have hb2len : ((buf.drop sz).drop 7).length = buf.length - sz - 7 := by
      simp [List.length_drop]
      omega
    have hsum2 : rest.sum + 7 * rest.length ≤ ((buf.drop sz).drop 7).length := by
      rw [hb2len]
      omega
    have h := ih ((buf.drop sz).drop 7) hrestpos hb2entries hsum2
    refine ⟨?_, ?_, ?_, ?_, h.2.2.2.2⟩
    · show (buf.take sz :: (buildWheels rest ((buf.drop sz).drop 7)).1).length
        = (sz :: rest).length
      simp only [List.length_cons, h.1]
    · show (parseBin ((buf.drop sz).take 7) % sz ::
          (buildWheels rest ((buf.drop sz).drop 7)).2.1).length = (sz :: rest).length
      simp only [List.length_cons, h.2.1]
    · intro i hi
      match i with
      | 0 =>
        refine ⟨?_, ?_, ?_⟩
        · show (buf.take sz).length = sz
          rw [List.length_take]
          omega
        · intro d hd
          exact hbuf d (List.take_subset _ _ hd)
        · show parseBin ((buf.drop sz).take 7) % sz < sz
          exact Nat.mod_lt _ hszpos
      | j + 1 =>
        have hj : j < rest.length := by simp at hi; omega
        exact h.2.2.1 j hj
    · show (buildWheels rest ((buf.drop sz).drop 7)).2.2.length
        = buf.length - ((sz :: rest).sum + 7 * (sz :: rest).length)
      rw [h.2.2.2.1, hb2len]
      simp only [List.sum_cons, List.length_cons]
      omega

theorem keygen_spec (shuffled buf : List ℕ)
    (hperm : shuffled.Perm candidateSizes) (hbuflen : buf.length = 700)
    (hbits : ∀ d ∈ buf, d ≤ 1) :
    ((keygen shuffled buf).1 ++ (keygen shuffled buf).2.1).Perm candidateSizes ∧
    (keygen shuffled buf).1.length = 5 ∧
    (keygen shuffled buf).2.1.length = 5 ∧
    (keygen shuffled buf).2.2.1.length = 5 ∧
    (keygen shuffled buf).2.2.2.1.length = 5 ∧
    (keygen shuffled buf).2.2.2.2.length = 10 ∧
    (∀ i, i < 5 →
      ((keygen shuffled buf).2.2.1.getD i []).length = (keygen shuffled buf).1.getD i 0 ∧
      (∀ d ∈ (keygen shuffled buf).2.2.1.getD i [], d ≤ 1) ∧
      (keygen shuffled buf).2.2.2.2.getD i 0 < (keygen shuffled buf).1.getD i 0) ∧
    (∀ i, i < 5 →
      ((keygen shuffled buf).2.2.2.1.getD i []).length = (keygen shuffled buf).2.1.getD i 0 ∧
      (∀ d ∈ (keygen shuffled buf).2.2.2.1.getD i [], d ≤ 1) ∧
      (keygen shuffled buf).2.2.2.2.getD (5 + i) 0 < (keygen shuffled buf).2.1.getD i 0) := by
  have hlen10 : shuffled.reverse.length = 2 * 5 := by
    rw [List.length_reverse, hperm.length_eq]
    rfl
  have hp := popLoop_spec 5 [] [] shuffled.reverse hlen10
  have hXlen : (popLoop 5 ([], [], shuffled.reverse)).1.length = 5 := by simpa using hp.1
  have hSlen : (popLoop 5 ([], [], shuffled.reverse)).2.1.length = 5 := by simpa using hp.2.1
  have hpp : ((popLoop 5 ([], [], shuffled.reverse)).1 ++
      (popLoop 5 ([], [], shuffled.reverse)).2.1).Perm shuffled.reverse := by
    simpa using hp.2.2
  have hperm2 : ((popLoop 5 ([], [], shuffled.reverse)).1 ++
      (popLoop 5 ([], [], shuffled.reverse)).2.1).Perm candidateSizes :=
    hpp.trans ((shuffled.reverse_perm).trans hperm)
  have hXpos : ∀ s ∈ (popLoop 5 ([], [], shuffled.reverse)).1, 0 < s := fun s hs =>
    cand_pos s (hperm2.mem_iff.mp (List.mem_append_left _ hs))
  have hSpos : ∀ s ∈ (popLoop 5 ([], [], shuffled.reverse)).2.1, 0 < s := fun s hs =>
    cand_pos s (hperm2.mem_iff.mp (List.mem_append_right _ hs))
  have hsum2 : (popLoop 5 ([], [], shuffled.reverse)).1.sum +
      (popLoop 5 ([], [], shuffled.reverse)).2.1.sum = 629 := by
    have h := hperm2.sum_eq
    rw [List.sum_append] at h
    simpa using h
  have hb1 := buildWheels_spec (popLoop 5 ([], [], shuffled.reverse)).1 buf hXpos hbits
    (by rw [hbuflen, hXlen]; omega)
  have hremlen := hb1.2.2.2.1
  rw [hbuflen, hXlen] at hremlen
  have hb2 := buildWheels_spec (popLoop 5 ([], [], shuffled.reverse)).2.1
    (buildWheels (popLoop 5 ([], [], shuffled.reverse)).1 buf).2.2 hSpos hb1.2.2.2.2
    (by rw [hremlen, hSlen]; omega)
  have hbxlen : (buildWheels (popLoop 5 ([], [], shuffled.reverse)).1 buf).2.1.length = 5 := by
    rw [hb1.2.1, hXlen]
  refine ⟨hperm2, hXlen, hSlen, ?_, ?_, ?_, ?_, ?_⟩
  · show (buildWheels (popLoop 5 ([], [], shuffled.reverse)).1 buf).1.length = 5
    rw [hb1.1, hXlen]
  · show (buildWheels (popLoop 5 ([], [], shuffled.reverse)).2.1
      (buildWheels (popLoop 5 ([], [], shuffled.reverse)).1 buf).2.2).1.length = 5
    rw [hb2.1, hSlen]
  · show ((buildWheels (popLoop 5 ([], [], shuffled.reverse)).1 buf).2.1 ++
      (buildWheels (popLoop 5 ([], [], shuffled.reverse)).2.1
        (buildWheels (popLoop 5 ([], [], shuffled.reverse)).1 buf).2.2).2.1).length = 10
    rw [List.length_append, hb1.2.1, hXlen, hb2.2.1, hSlen]
  · intro i hi
    have hx := hb1.2.2.1 i (by rw [hXlen]; exact hi)
    refine ⟨hx.1, hx.2.1, ?_⟩
    show ((buildWheels (popLoop 5 ([], [], shuffled.reverse)).1 buf).2.1 ++
      (buildWheels (popLoop 5 ([], [], shuffled.reverse)).2.1
        (buildWheels (popLoop 5 ([], [], shuffled.reverse)).1 buf).2.2).2.1).getD i 0
      < (popLoop 5 ([], [], shuffled.reverse)).1.getD i 0
    rw [listGetD_append_lt _ _ i 0 (by rw [hbxlen]; exact hi)]
    exact hx.2.2
  · intro i hi
    have hs := hb2.2.2.1 i (by rw [hSlen]; exact hi)
    refine ⟨hs.1, hs.2.1, ?_⟩
    show ((buildWheels (popLoop 5 ([], [], shuffled.reverse)).1 buf).2.1 ++
      (buildWheels (popLoop 5 ([], [], shuffled.reverse)).2.1
        (buildWheels (popLoop 5 ([], [], shuffled.reverse)).1 buf).2.2).2.1).getD (5 + i) 0
      < (popLoop 5 ([], [], shuffled.reverse)).2.1.getD i 0
    have h5 : (5 : ℕ) + i =
        (buildWheels (popLoop 5 ([], [], shuffled.reverse)).1 buf).2.1.length + i := by
      rw [hbxlen]
    rw [h5, listGetD_append_ge]
    exact hs.2.2

/-- C8: over any shuffle outcome and any 700-digit random buffer, the
five X sizes and five S sizes together are exactly a permutation of the
fixed candidate set; each generated pattern has the length of its wheel
with every entry 0 or 1; and each indicator entry, a 7-digit draw reduced
modulo its wheel length, lies below that length. -/
theorem c8_keygen_valid (shuffled buf Xsz Ssz : List ℕ) (Xw Sw : List (List ℕ)) (ind : List ℕ)
    (hperm : shuffled.Perm candidateSizes) (hbuflen : buf.length = 700)
    (hbits : ∀ d ∈ buf, d ≤ 1)
    (heq : keygen shuffled buf = (Xsz, Ssz, Xw, Sw, ind)) :
    (Xsz ++ Ssz).Perm candidateSizes ∧
    Xsz.length = 5 ∧ Ssz.length = 5 ∧ Xw.length = 5 ∧ Sw.length = 5 ∧ ind.length = 10 ∧
    (∀ i, i < 5 → (Xw.getD i []).length = Xsz.getD i 0 ∧
      (∀ d ∈ Xw.getD i [], d ≤ 1) ∧ ind.getD i 0 < Xsz.getD i 0) ∧
    (∀ i, i < 5 → (Sw.getD i []).length = Ssz.getD i 0 ∧
      (∀ d ∈ Sw.getD i [], d ≤ 1) ∧ ind.getD (5 + i) 0 < Ssz.getD i 0) := by
  have hs := keygen_spec shuffled buf hperm hbuflen hbits
  rw [heq] at hs
  simpa using hs

/-- Witness for C8 at the unshuffled candidate order and the all-zero
700-digit buffer. -/
theorem c8_keygen_valid_witness :
    (([47, 59, 64, 67, 71] ++ [53, 61, 65, 69, 73] : List ℕ)).Perm candidateSizes ∧
    ([47, 59, 64, 67, 71] : List ℕ).length = 5 ∧
    ([53, 61, 65, 69, 73] : List ℕ).length = 5 ∧
    ([List.replicate 47 0, List.replicate 59 0, List.replicate 64 0,
      List.replicate 67 0, List.replicate 71 0] : List (List ℕ)).length = 5 ∧
    ([List.replicate 53 0, List.replicate 61 0, List.replicate 65 0,
      List.replicate 69 0, List.replicate 73 0] : List (List ℕ)).length = 5 ∧
    ([0, 0, 0, 0, 0, 0, 0, 0, 0, 0] : List ℕ).length = 10 ∧
    (∀ i, i < 5 →
      (([List.replicate 47 0, List.replicate 59 0, List.replicate 64 0,
        List.replicate 67 0, List.replicate 71 0] : List (List ℕ)).getD i []).length
          = ([47, 59, 64, 67, 71] : List ℕ).getD i 0 ∧
      (∀ d ∈ ([List.replicate 47 0, List.replicate 59 0, List.replicate 64 0,
        List.replicate 67 0, List.replicate 71 0] : List (List ℕ)).getD i [], d ≤ 1) ∧
      ([0, 0, 0, 0, 0, 0, 0, 0, 0, 0] : List ℕ).getD i 0
        < ([47, 59, 64, 67, 71] : List ℕ).getD i 0) ∧
    (∀ i, i < 5 →
      (([List.replicate 53 0, List.replicate 61 0, List.replicate 65 0,
        List.replicate 69 0, List.replicate 73 0] : List (List ℕ)).getD i []).length
          = ([53, 61, 65, 69, 73] : List ℕ).getD i 0 ∧
      (∀ d ∈ ([List.replicate 53 0, List.replicate 61 0, List.replicate 65 0,
        List.replicate 69 0, List.replicate 73 0] : List (List ℕ)).getD i [], d ≤ 1) ∧
      ([0, 0, 0, 0, 0, 0, 0, 0, 0, 0] : List ℕ).getD (5 + i) 0
        < ([53, 61, 65, 69, 73] : List ℕ).getD i 0) :=
  c8_keygen_valid candidateSizes (List.replicate 700 0)
    [47, 59, 64, 67, 71] [53, 61, 65, 69, 73]
    [List.replicate 47 0, List.replicate 59 0, List.replicate 64 0,
      List.replicate 67 0, List.replicate 71 0]
    [List.replicate 53 0, List.replicate 61 0, List.replicate 65 0,
      List.replicate 69 0, List.replicate 73 0]
    [0, 0, 0, 0, 0, 0, 0, 0, 0, 0]
    (List.Perm.refl _) (List.length_replicate 700 0)
    (fun d hd => by rw [List.eq_of_mem_replicate hd]; exact Nat.zero_le 1) (by decide)
